/-
Verification development for the RePlaszyme local sequence-alignment search
engine (backend/services/blast/aligner.py, backend/services/blast/database.py,
backend/main.py).

Strings are modelled as List Char (ASCII-faithful: Python's str.isalpha,
str.upper, str.strip agree with Lean's Char.isAlpha, Char.toUpper,
Char.isWhitespace on the ASCII inputs relevant here).  Python floats are
modelled as exact rationals, except for the E-value, which uses Real.exp and
is modelled over EReal (positive infinity is EReal top).
-/
import Mathlib

set_option maxRecDepth 8000

/-- Residue alphabet supported by the BLOSUM62 table, in the row order of the
NCBI BLOSUM62 matrix: the 20 standard amino acids plus the ambiguity codes
B, Z, X.  Modelled from the spec: section 4.2 requires a fixed
BLOSUM62-equivalent 23-by-23 table; the repository loads it from BioPython
(`substitution_matrices.load("BLOSUM62")`), which is outside src/. -/
def aaOrder : List Char :=
  ['A', 'R', 'N', 'D', 'C', 'Q', 'E', 'G', 'H', 'I', 'L', 'K',
   'M', 'F', 'P', 'S', 'T', 'W', 'Y', 'V', 'B', 'Z', 'X']

/-- Rows of the BLOSUM62 substitution table, indexed by `aaOrder` in both
dimensions.  Modelled from the spec: section 4.2 (BLOSUM62-equivalent table,
symmetric, baked in at build time); values are the standard NCBI BLOSUM62
scores that BioPython's `substitution_matrices.load("BLOSUM62")` provides. -/
def blosumRows : List (List Int) :=
  [[4, -1, -2, -2, 0, -1, -1, 0, -2, -1, -1, -1, -1, -2, -1, 1, 0, -3, -2, 0, -2, -1, 0],
   [-1, 5, 0, -2, -3, 1, 0, -2, 0, -3, -2, 2, -1, -3, -2, -1, -1, -3, -2, -3, -1, 0, -1],
   [-2, 0, 6, 1, -3, 0, 0, 0, 1, -3, -3, 0, -2, -3, -2, 1, 0, -4, -2, -3, 3, 0, -1],
   [-2, -2, 1, 6, -3, 0, 2, -1, -1, -3, -4, -1, -3, -3, -1, 0, -1, -4, -3, -3, 4, 1, -1],
   [0, -3, -3, -3, 9, -3, -4, -3, -3, -1, -1, -3, -1, -2, -3, -1, -1, -2, -2, -1, -3, -3, -2],
   [-1, 1, 0, 0, -3, 5, 2, -2, 0, -3, -2, 1, 0, -3, -1, 0, -1, -2, -1, -2, 0, 3, -1],
   [-1, 0, 0, 2, -4, 2, 5, -2, 0, -3, -3, 1, -2, -3, -1, 0, -1, -3, -2, -2, 1, 4, -1],
   [0, -2, 0, -1, -3, -2, -2, 6, -2, -4, -4, -2, -3, -3, -2, 0, -2, -2, -3, -3, -1, -2, -1],
   [-2, 0, 1, -1, -3, 0, 0, -2, 8, -3, -3, -1, -2, -1, -2, -1, -2, -2, 2, -3, 0, 0, -1],
   [-1, -3, -3, -3, -1, -3, -3, -4, -3, 4, 2, -3, 1, 0, -3, -2, -1, -3, -1, 3, -3, -3, -1],
   [-1, -2, -3, -4, -1, -2, -3, -4, -3, 2, 4, -2, 2, 0, -3, -2, -1, -2, -1, 1, -4, -3, -1],
   [-1, 2, 0, -1, -3, 1, 1, -2, -1, -3, -2, 5, -1, -3, -1, 0, -1, -3, -2, -2, 0, 1, -1],
   [-1, -1, -2, -3, -1, 0, -2, -3, -2, 1, 2, -1, 5, 0, -2, -1, -1, -1, -1, 1, -3, -1, -1],
   [-2, -3, -3, -3, -2, -3, -3, -3, -1, 0, 0, -3, 0, 6, -4, -2, -2, 1, 3, -1, -3, -3, -1],
   [-1, -2, -2, -1, -3, -1, -1, -2, -2, -3, -3, -1, -2, -4, 7, -1, -1, -4, -3, -2, -2, -1, -2],
   [1, -1, 1, 0, -1, 0, 0, 0, -1, -2, -2, 0, -1, -2, -1, 4, 1, -3, -2, -2, 0, 0, 0],
   [0, -1, 0, -1, -1, -1, -1, -2, -2, -1, -1, -1, -1, -2, -1, 1, 5, -2, -2, 0, -1, -1, 0],
   [-3, -3, -4, -4, -2, -2, -3, -2, -2, -3, -2, -3, -1, 1, -4, -3, -2, 11, 2, -3, -4, -3, -2],
   [-2, -2, -2, -3, -2, -1, -2, -3, 2, -1, -1, -2, -1, 3, -3, -2, -2, 2, 7, -1, -3, -2, -1],
   [0, -3, -3, -3, -1, -2, -2, -3, -3, 3, 1, -2, 1, -1, -2, -2, 0, -3, -1, 4, -3, -2, -1],
   [-2, -1, 3, 4, -3, 0, 1, -1, 0, -3, -4, 0, -3, -3, -2, 0, -1, -4, -3, -3, 4, 1, -1],
   [-1, 0, 0, 1, -3, 3, 4, -2, 0, -3, -3, 1, -1, -3, -1, 0, -1, -3, -2, -2, 1, 4, -1],
   [0, -1, -1, -1, -2, -1, -1, -1, -1, -1, -1, -1, -1, -1, -2, 0, 0, -2, -1, -1, -1, -1, -1]]

/-- Substitution score of a pair of residues.  Modelled from the spec:
section 4.2, `score(a, b)`.  Pairs outside the covered alphabet cannot occur
after normalization; the model returns 0 for them (the spec's fail-fast error
case is unreachable in the pipeline below). -/
def blosum62 (a b : Char) : Int :=
  match aaOrder.indexOf? a, aaOrder.indexOf? b with
  | some i, some j => (blosumRows.getD i []).getD j 0
  | _, _ => 0

/-- The 20 standard amino acids, as in `BlastAligner.STANDARD_AMINO_ACIDS`. -/
def stdAA : List Char :=
  ['A', 'C', 'D', 'E', 'F', 'G', 'H', 'I', 'K', 'L',
   'M', 'N', 'P', 'Q', 'R', 'S', 'T', 'V', 'W', 'Y']

/-- The 22 residues with positive BLOSUM62 self-score: the full alphabet
without the ambiguity code X (whose self-score is -1). -/
def alphaNoX : List Char :=
  ['A', 'R', 'N', 'D', 'C', 'Q', 'E', 'G', 'H', 'I', 'L', 'K',
   'M', 'F', 'P', 'S', 'T', 'W', 'Y', 'V', 'B', 'Z']

/-- Python `str.strip()`: drop leading and trailing whitespace. -/
def stripChars (l : List Char) : List Char :=
  ((l.dropWhile Char.isWhitespace).reverse.dropWhile Char.isWhitespace).reverse

/-- Python `str.split(sep)` for a one-character separator: split into the
(possibly empty) chunks between occurrences of `sep`. -/
def splitOnChar (sep : Char) : List Char → List (List Char)
  | [] => [[]]
  | c :: rest =>
    let r := splitOnChar sep rest
    if c = sep then [] :: r
    else
      match r with
      | [] => [[c]]
      | l :: ls => (c :: l) :: ls

/-- Python `line.startswith('>')` on a line of characters. -/
def isHeaderLine (l : List Char) : Bool :=
  match l with
  | [] => false
  | c :: _ => c == '>'

/-- Replacement of non-standard residues, from `BlastAligner._clean_sequence`:
a character is kept if it is one of the 20 standard amino acids or one of
B, Z, X, and replaced by X otherwise. -/
def coerceAA (c : Char) : Char :=
  if c ∈ stdAA ∨ c ∈ (['B', 'Z', 'X'] : List Char) then c else 'X'

/-- Embedding of `BlastAligner._clean_sequence`: strip the raw input, split it
into lines, drop FASTA header lines (those beginning with a greater-than
sign), join the rest, keep only alphabetic characters, upper-case them, and
coerce everything outside the 23-letter alphabet to X. -/
def cleanSequence (raw : List Char) : List Char :=
  let lines := splitOnChar '\n' (stripChars raw)
  let body := lines.filter (fun l => !isHeaderLine l)
  let joined := body.flatten
  let alphaUp := (joined.filter Char.isAlpha).map Char.toUpper
  alphaUp.map coerceAA

/-- Embedding of `EnzymeSequence` (database.py): one corpus record.  The `id`
database key is omitted (it is only used internally by the SQL layer). -/
structure EnzymeSequence where
  plaszyme_id : String
  accession : String
  enzyme_name : String
  organism : String
  sequence : List Char
  plastic_types : List String
  has_structure : Bool
deriving DecidableEq

/-- Embedding of `SequenceDatabase.load_sequences`: filter the corpus by
plastic substrate types (an empty filter list, like Python's falsy `None` or
`[]`, means no filtering; otherwise an enzyme is kept when at least one of
its substrate codes is in the filter, which is what the SQL
`INNER JOIN ... IN (...)` with `DISTINCT` computes) and by structure
availability.  The corpus iteration order is the list order. -/
def loadSequences (db : List EnzymeSequence) (plastic_types : List String)
    (require_structure : Bool) : List EnzymeSequence :=
  db.filter (fun e =>
    (plastic_types.isEmpty || e.plastic_types.any (fun c => plastic_types.contains c)) &&
    (!require_structure || e.has_structure))

/-- Total residue count of a corpus subset: the sum of the raw stored sequence
lengths, as computed by `SequenceDatabase.get_database_stats` over the list
cached by the last `load_sequences` call (`total_residues`). -/
def residueTotal (l : List EnzymeSequence) : ℕ :=
  (l.map (fun e => e.sequence.length)).sum

/-- Boundary sentinel for the E and F gap matrices: gap states do not exist in
row 0 / column 0, and this value is low enough never to win a maximum. -/
def negB : Int := -1000000

/-- Boundary cell (H, E, F) of the dynamic-programming matrices. -/
def baseCell : Int × Int × Int := (0, negB, negB)

/-- Inner loop of the Smith–Waterman recurrence.  Modelled from the spec:
section 4.3.  `prev` is row `i - 1` of the matrices, `qc` is query residue
`i - 1`, and the result at `j` is the cell (H, E, F) at row `i`, column `j`:
E and F are the best scores ending in a horizontal or vertical gap (gap open
-11 for the first gapped position, -1 for each further one), and H is the
floored-at-0 best of the diagonal extension and the two gap states. -/
def swRowAux (prev : ℕ → Int × Int × Int) (qc : Char) (t : List Char) :
    ℕ → Int × Int × Int
  | 0 => baseCell
  | j + 1 =>
    let left := swRowAux prev qc t j
    let diag := prev j
    let up := prev (j + 1)
    let e := max (left.1 - 11) (left.2.1 - 1)
    let f := max (up.1 - 11) (up.2.2 - 1)
    let h := max (max 0 (diag.1 + blosum62 qc (t.getD j 'A'))) (max e f)
    (h, e, f)

/-- Smith–Waterman matrices for query `q` against target `t`.  Modelled from
the spec: section 4.3.  `swRow q t i j` is the cell (H, E, F) at row `i`
(query prefix length) and column `j` (target prefix length); row 0 and
column 0 hold the local-alignment floor H = 0. -/
def swRow (q t : List Char) : ℕ → ℕ → Int × Int × Int
  | 0 => fun _ => baseCell
  | i + 1 => swRowAux (swRow q t i) (q.getD i 'A') t

/-- All matrix coordinates in row-major scan order (top-to-bottom,
left-to-right), as required by the spec's deterministic tie-break rule. -/
def dpCells (n m : ℕ) : List (ℕ × ℕ) :=
  (List.range (n + 1)).flatMap (fun i => (List.range (m + 1)).map (fun j => (i, j)))

/-- Scan a list of coordinates keeping the first strictly-greatest score.
Modelled from the spec: section 4.3 (track the global maximum cell; among
ties select the cell encountered first in row-major order). -/
def pickBest (score : ℕ × ℕ → Int) (acc : (ℕ × ℕ) × Int) :
    List (ℕ × ℕ) → (ℕ × ℕ) × Int
  | [] => acc
  | ij :: rest => pickBest score (if score ij > acc.2 then (ij, score ij) else acc) rest

/-- Maximum H cell of the matrices for `q` versus `t`: the traceback start and
the raw alignment score. -/
def bestCell (q t : List Char) : (ℕ × ℕ) × Int :=
  pickBest (fun ij => (swRow q t ij.1 ij.2).1) ((0, 0), 0) (dpCells q.length t.length)

/-- Traceback state: inside the H matrix, or walking a horizontal (E) or
vertical (F) gap. -/
inductive TbLayer where
  | mh : TbLayer
  | me : TbLayer
  | mf : TbLayer
deriving DecidableEq

/-- Rank used in the traceback termination measure. -/
def tbRank : TbLayer → ℕ
  | .mh => 1
  | .me => 0
  | .mf => 0

/-- Traceback from a cell.  Modelled from the spec: section 4.3 — follow, from
the maximum cell, the direction that produced each cell's value (diagonal
preferred, then horizontal gap, then vertical gap) until a cell of value 0 is
reached, collecting the diagonally-matched coordinate pairs in ascending
order.  Gap runs are walked inside the E or F state, re-entering H where the
gap was opened. -/
def traceback (q t : List Char) : ℕ → ℕ → TbLayer → List (ℕ × ℕ)
  | i, j, .mh =>
    if _hij : i = 0 ∨ j = 0 then []
    else
      let c := swRow q t i j
      if c.1 ≤ 0 then []
      else if c.1 = (swRow q t (i - 1) (j - 1)).1 +
          blosum62 (q.getD (i - 1) 'A') (t.getD (j - 1) 'A') then
        traceback q t (i - 1) (j - 1) .mh ++ [(i - 1, j - 1)]
      else if c.1 = c.2.1 then traceback q t i j .me
      else traceback q t i j .mf
  | i, j, .me =>
    if hj : j = 0 then []
    else
      if (swRow q t i j).2.1 = (swRow q t i (j - 1)).1 - 11 then
        traceback q t i (j - 1) .mh
      else traceback q t i (j - 1) .me
  | i, j, .mf =>
    if hi : i = 0 then []
    else
      if (swRow q t i j).2.2 = (swRow q t (i - 1) j).1 - 11 then
        traceback q t (i - 1) j .mh
      else traceback q t (i - 1) j .mf
termination_by i j l => (i + j, tbRank l)
decreasing_by
  · apply Prod.Lex.left
    omega
  · apply Prod.Lex.right
    decide
  · apply Prod.Lex.right
    decide
  · apply Prod.Lex.left
    omega
  · apply Prod.Lex.left
    omega
  · apply Prod.Lex.left
    omega
  · apply Prod.Lex.left
    omega

/-- One gap-free matched block of a local alignment: query span [qs, qe) is
aligned to target span [ts, te).  This is one entry of the `.aligned` region
list of `BlastAligner.align` (a pair of query and target spans). -/
structure Region where
  qs : ℕ
  qe : ℕ
  ts : ℕ
  te : ℕ
deriving DecidableEq

/-- Merge an ascending list of diagonally-matched coordinate pairs into
maximal contiguous regions; `(a, b)` opens the current run and `len` is its
length so far. -/
def compressGo (a b len : ℕ) : List (ℕ × ℕ) → List Region
  | [] => [⟨a, a + len, b, b + len⟩]
  | (x, y) :: rest =>
    if x = a + len ∧ y = b + len then compressGo a b (len + 1) rest
    else ⟨a, a + len, b, b + len⟩ :: compressGo x y 1 rest

/-- Matched-pair list to region list (the `.aligned` blocks). -/
def compress : List (ℕ × ℕ) → List Region
  | [] => []
  | (x, y) :: rest => compressGo x y 1 rest

/-- Sum of query-span lengths over the regions: `alignment_length` in
`BlastAligner.align`. -/
def alignmentLength (regions : List Region) : ℕ :=
  (regions.map (fun r => r.qe - r.qs)).sum

/-- First region's query start and last region's query end (`query_start` and
`query_end` in `BlastAligner.align`); (0, 0) when there are no regions. -/
def regionSpan : List Region → ℕ × ℕ
  | [] => (0, 0)
  | r :: rs => (r.qs, (rs.getLastD r).qe)

/-- Identity counting loop of `BlastAligner.align`: over each region compare
`min(query span, target span)` positions pairwise; the result is the pair
(identical_count, compared_positions). -/
def regionStats (q t : List Char) (regions : List Region) : ℕ × ℕ :=
  regions.foldl
    (fun acc r =>
      let len := min (r.qe - r.qs) (r.te - r.ts)
      (acc.1 + (List.range len).countP
          (fun i => q.getD (r.qs + i) '?' == t.getD (r.ts + i) '?'),
       acc.2 + len))
    (0, 0)

/-- Embedding of `BlastAligner._calculate_query_coverage` (percent of the
query spanned by the alignment).  The spans produced by the traceback are
ascending, so the natural subtraction matches Python's integer one. -/
def queryCoverage (qs qe n : ℕ) : ℚ :=
  if n = 0 then 0 else ((qe - qs : ℕ) : ℚ) / n * 100

/-- Percent identity over the compared positions, as computed inline in
`BlastAligner.align` (0 when nothing was compared). -/
def percentIdentity (ident comp : ℕ) : ℚ :=
  if comp = 0 then 0 else (ident : ℚ) / comp * 100

/-- Python's banker's rounding of a rational to an integer (round half to
even), the semantics of the built-in `round`. -/
def roundHalfEven (x : ℚ) : ℤ :=
  let f := ⌊x⌋
  let r := x - f
  if r < 1 / 2 then f
  else if 1 / 2 < r then f + 1
  else if f % 2 = 0 then f else f + 1

/-- Python `round(x, d)` on exact rationals. -/
def roundTo (d : ℕ) (x : ℚ) : ℚ :=
  (roundHalfEven (x * 10 ^ d) : ℚ) / 10 ^ d

/-- Embedding of the `BlastHit` dataclass.  `max_score` holds the raw
alignment score: all model scores are integers, so Python's `round(score, 1)`
is the identity on them.  The float `e_value` field is not stored here; it is
the (noncomputable) real `searchEValue` of `max_score` below, which is
exactly how `BlastAligner.align` computes it. -/
structure BlastHit where
  plaszyme_id : String
  accession : String
  description : String
  organism : String
  plastic_types : List String
  max_score : Int
  query_cover : ℚ
  percent_identity : ℚ
  alignment_length : ℕ
  has_structure : Bool
deriving DecidableEq

/-- Per-entry alignment and metric computation of `BlastAligner.align` (the
body of the corpus loop, before the identity-threshold gate): clean the
stored target, align, extract regions, and derive the metrics. -/
def mkHit (query : List Char) (e : EnzymeSequence) : BlastHit :=
  let target := cleanSequence e.sequence
  let best := bestCell query target
  let pairs := traceback query target best.1.1 best.1.2 TbLayer.mh
  let regions := compress pairs
  let span := regionSpan regions
  let stats := regionStats query target regions
  { plaszyme_id := e.plaszyme_id
    accession := e.accession
    description := e.enzyme_name
    organism := e.organism
    plastic_types := e.plastic_types
    max_score := best.2
    query_cover := roundTo 1 (queryCoverage span.1 span.2 query.length)
    percent_identity := roundTo 2 (percentIdentity stats.1 stats.2)
    alignment_length := alignmentLength regions
    has_structure := e.has_structure }

/-- One corpus-loop iteration of `BlastAligner.align`: entries with an empty
stored sequence are skipped, and a computed hit is dropped when its percent
identity is below the similarity threshold. -/
def alignHit (query : List Char) (thr : ℚ) (e : EnzymeSequence) : Option BlastHit :=
  if e.sequence.isEmpty then none
  else
    let h := mkHit query e
    if h.percent_identity < thr then none else some h

/-- Hit stream of `BlastAligner.align`, in corpus iteration order. -/
def candidateHits (query : List Char) (thr : ℚ) (seqs : List EnzymeSequence) :
    List BlastHit :=
  seqs.filterMap (alignHit query thr)

/-- Sort key of `hits.sort(key=lambda x: x.max_score, reverse=True)`: `a`
may precede `b` when `b`'s score is at most `a`'s.  Python's stable sort
with `reverse=True` keeps the original order of ties, as `mergeSort` with
this relation does. -/
def scoreLe (a b : BlastHit) : Bool := decide (b.max_score ≤ a.max_score)

/-- Embedding of `BlastAligner.align`: clean the query (returning
([], 0, 0) when it is empty), load the filtered corpus, compute the gated
hit stream, sort it by score descending (stably), truncate to `max_results`,
and return it with the total and filtered corpus counts. -/
def align (raw : List Char) (db : List EnzymeSequence) (plastic_types : List String)
    (require_structure : Bool) (max_results : ℕ) (thr : ℚ) :
    List BlastHit × ℕ × ℕ :=
  let query := cleanSequence raw
  if query.length = 0 then ([], 0, 0)
  else
    let seqs := loadSequences db plastic_types require_structure
    let hits := candidateHits query thr seqs
    ((hits.mergeSort scoreLe).take max_results, db.length, seqs.length)

/-- Search-level errors of the `blast_search` endpoint (main.py).  The
threshold-parse failure belongs to the excluded transport layer; the model
takes the threshold as a number. -/
inductive SearchError where
  | invalidQuery : SearchError
deriving DecidableEq

/-- Embedding of the `blast_search` endpoint (main.py): reject the request
with an invalid-query error when the cleaned query is empty (no valid amino
acid characters), before any alignment; otherwise run the aligner. -/
def blastSearch (raw : List Char) (db : List EnzymeSequence)
    (plastic_types : List String) (require_structure : Bool)
    (max_results : ℕ) (thr : ℚ) :
    Except SearchError (List BlastHit × ℕ × ℕ) :=
  if (cleanSequence raw).length = 0 then Except.error SearchError.invalidQuery
  else Except.ok (align raw db plastic_types require_structure max_results thr)

/-- Embedding of `BlastAligner._calculate_e_value`: positive infinity when the
score is non-positive, and otherwise K * m * n * exp(-lambda * S) with
K = 0.041 and lambda = 0.267.  Noncomputable because it is the exact
real-number reading of the float formula. -/
noncomputable def eValue (m n : ℕ) (s : ℤ) : EReal :=
  if s ≤ 0 then ⊤
  else (((41 / 1000 : ℝ) * m * n * Real.exp (-(267 / 1000 : ℝ) * s) : ℝ) : EReal)

/-- E-value reported for a hit of raw score `s` by `BlastAligner.align`: the
formula is evaluated at m = cleaned query length (`self._query_length`) and
n = total residues of the post-filter corpus subset (`db_stats` of the list
cached by `load_sequences`). -/
noncomputable def searchEValue (raw : List Char) (db : List EnzymeSequence)
    (plastic_types : List String) (require_structure : Bool) (s : ℤ) : EReal :=
  eValue (cleanSequence raw).length
    (residueTotal (loadSequences db plastic_types require_structure)) s

/-- Self-alignment prefix score: the sum of the BLOSUM62 self-scores of the
first `k` residues of `S` (the value of the DP diagonal for a self
alignment). -/
def selfScore (S : List Char) (k : ℕ) : ℤ :=
  ((S.take k).map (fun c => blosum62 c c)).sum

/-- Concrete corpus entry whose stored sequence is the single ambiguity
residue X; used to exhibit behaviour on X-containing sequences. -/
def enzymeX : EnzymeSequence :=
  { plaszyme_id := "X0001"
    accession := "A0A0K8P6T7"
    enzyme_name := "ambiguous enzyme"
    organism := "Unknown"
    sequence := ['X']
    plastic_types := ["PET"]
    has_structure := true }

/-- Concrete corpus entry with a short standard-residue sequence, used by
witnesses. -/
def enzymeMK : EnzymeSequence :=
  { plaszyme_id := "X0002"
    accession := "P00001"
    enzyme_name := "test enzyme"
    organism := "E. coli"
    sequence := ['M', 'K']
    plastic_types := ["PE"]
    has_structure := false }

/-- Concrete corpus entry whose stored residue string is empty, used by
witnesses. -/
def enzymeEmpty : EnzymeSequence :=
  { plaszyme_id := "X0003"
    accession := "P00002"
    enzyme_name := "empty enzyme"
    organism := "Unknown"
    sequence := []
    plastic_types := []
    has_structure := false }

/-- BLOSUM62 dominance on the 22-letter alphabet without X: a pair score never
exceeds either self-score. -/
theorem blosum_dom : ∀ a ∈ alphaNoX, ∀ b ∈ alphaNoX,
    blosum62 a b ≤ blosum62 a a ∧ blosum62 a b ≤ blosum62 b b := by decide

/-- Every residue outside X has a strictly positive BLOSUM62 self-score. -/
theorem blosum_self_pos : ∀ a ∈ alphaNoX, 0 < blosum62 a a := by decide

/-- The 22-letter alphabet is contained in the full 23-letter alphabet. -/
theorem alphaNoX_subset : ∀ c ∈ alphaNoX, c ∈ aaOrder := by decide

/-- Character-level facts about the 23-letter alphabet used when showing the
normalizer fixes pure residue strings. -/
theorem aaChar_facts : ∀ c ∈ aaOrder,
    c.isAlpha = true ∧ c.toUpper = c ∧ ¬c = '\n' ∧ ¬c = '>' ∧
    c.isWhitespace = false := by decide

/-- Every residue of the 23-letter alphabet is kept as-is by the coercion. -/
theorem aa_keeps : ∀ c ∈ aaOrder, (c ∈ stdAA ∨ c ∈ (['B', 'Z', 'X'] : List Char)) := by
  decide

/-- The coercion always lands in the 23-letter alphabet. -/
theorem coerceAA_mem (c : Char) : coerceAA c ∈ aaOrder := by
  unfold coerceAA
  split
  · rename_i h
    rcases h with h | h
    · exact (by decide : ∀ c ∈ stdAA, c ∈ aaOrder) c h
    · exact (by decide : ∀ c ∈ (['B', 'Z', 'X'] : List Char), c ∈ aaOrder) c h
  · decide

/-- A `dropWhile` with a predicate false on every element is the identity. -/
theorem dropWhile_eq_self_of_forall {p : Char → Bool} {l : List Char}
    (h : ∀ c ∈ l, p c = false) : l.dropWhile p = l := by
  cases l with
  | nil => rfl
  | cons a l =>
    rw [List.dropWhile_cons, h a (by simp)]
    simp

/-- A map with a function fixing every element of the list is the identity. -/
theorem map_id_of_mem {α : Type} {f : α → α} {l : List α}
    (h : ∀ a ∈ l, f a = a) : l.map f = l := by
  induction l with
  | nil => rfl
  | cons a l ih =>
    simp only [List.map_cons, h a (by simp), ih (fun a ha => h a (by simp [ha]))]

/-- Stripping a string with no whitespace is the identity. -/
theorem stripChars_eq_self {l : List Char} (h : ∀ c ∈ l, c.isWhitespace = false) :
    stripChars l = l := by
  unfold stripChars
  rw [dropWhile_eq_self_of_forall h]
  rw [dropWhile_eq_self_of_forall (fun c hc => h c (List.mem_reverse.mp hc))]
  exact List.reverse_reverse l

/-- Splitting on a separator that does not occur yields the single chunk. -/
theorem splitOnChar_no_sep {sep : Char} {l : List Char}
    (h : ∀ c ∈ l, ¬c = sep) : splitOnChar sep l = [l] := by
  induction l with
  | nil => rfl
  | cons a l ih =>
    have ha : ¬a = sep := h a (by simp)
    have : splitOnChar sep l = [l] := ih (fun c hc => h c (by simp [hc]))
    simp only [splitOnChar, this, if_neg ha]

/-- The normalizer fixes any string over the 23-letter residue alphabet. -/
theorem clean_fixed {S : List Char} (h : ∀ c ∈ S, c ∈ aaOrder) :
    cleanSequence S = S := by
  have hfacts := fun c hc => aaChar_facts c (h c hc)
  unfold cleanSequence
  rw [stripChars_eq_self (fun c hc => (hfacts c hc).2.2.2.2)]
  rw [splitOnChar_no_sep (fun c hc => (hfacts c hc).2.2.1)]
  have hhd : isHeaderLine S = false := by
    cases S with
    | nil => rfl
    | cons a l =>
      simp only [isHeaderLine, beq_eq_false_iff_ne, ne_eq]
      exact (hfacts a (by simp)).2.2.2.1
  simp only [List.filter_cons, hhd, Bool.not_false, if_pos, List.filter_nil,
    List.flatten_cons, List.flatten_nil, List.append_nil]
  rw [List.filter_eq_self.mpr (fun c hc => (hfacts c hc).1)]
  rw [map_id_of_mem (fun c hc => (hfacts c hc).2.1)]
  exact map_id_of_mem (fun c hc => by
    unfold coerceAA
    exact if_pos (aa_keeps c (h c hc)))

/-- Reading a list with a default at an in-range index gives the element. -/
theorem getD_eq_of_lt {l : List Char} {k : ℕ} (h : k < l.length) (d : Char) :
    l.getD k d = l[k] := by
  rw [List.getD_eq_getElem?_getD, List.getElem?_eq_getElem h]
  rfl

/-- The in-range defaulted read of a list is one of its elements. -/
theorem getD_mem_of_lt {l : List Char} {k : ℕ} (h : k < l.length) (d : Char) :
    l.getD k d ∈ l := by
  rw [getD_eq_of_lt h]
  exact List.getElem_mem h

/-- Unfolding of the self-alignment prefix score at an in-range index. -/
theorem selfScore_succ {S : List Char} {k : ℕ} (h : k < S.length) :
    selfScore S (k + 1) =
      selfScore S k + blosum62 (S.getD k 'A') (S.getD k 'A') := by
  unfold selfScore
  rw [List.take_succ, List.getElem?_eq_getElem h]
  simp only [Option.toList_some, List.map_append, List.map_cons, List.map_nil,
    List.sum_append, List.sum_cons, List.sum_nil, add_zero]
  rw [getD_eq_of_lt h]

/-- The prefix score never decreases with the prefix length. -/
theorem selfScore_step {S : List Char} (hS : ∀ c ∈ S, c ∈ alphaNoX) (k : ℕ) :
    selfScore S k ≤ selfScore S (k + 1) := by
  by_cases h : k < S.length
  · rw [selfScore_succ h]
    have := blosum_self_pos _ (hS _ (getD_mem_of_lt h 'A'))
    omega
  · unfold selfScore
    rw [List.take_of_length_le (by omega), List.take_of_length_le (by omega)]

/-- Monotonicity of the prefix score in the prefix length. -/
theorem selfScore_mono {S : List Char} (hS : ∀ c ∈ S, c ∈ alphaNoX) :
    Monotone (selfScore S) :=
  monotone_nat_of_le_succ (selfScore_step hS)

/-- Strict growth of the prefix score inside the sequence. -/
theorem selfScore_lt {S : List Char} (hS : ∀ c ∈ S, c ∈ alphaNoX) {k : ℕ}
    (h : k < S.length) : selfScore S k < selfScore S (k + 1) := by
  rw [selfScore_succ h]
  have := blosum_self_pos _ (hS _ (getD_mem_of_lt h 'A'))
  omega

/-- The prefix score is nonnegative. -/
theorem selfScore_nonneg {S : List Char} (hS : ∀ c ∈ S, c ∈ alphaNoX) (k : ℕ) :
    0 ≤ selfScore S k := by
  have h0 : selfScore S 0 = 0 := rfl
  have := selfScore_mono hS (Nat.zero_le k)
  omega

/-- The prefix score of a nonempty positive-alphabet prefix is positive. -/
theorem selfScore_pos {S : List Char} (hS : ∀ c ∈ S, c ∈ alphaNoX)
    (hne : S ≠ []) {k : ℕ} (h1 : 1 ≤ k) : 0 < selfScore S k := by
  have h0 : 0 < S.length := List.length_pos.mpr hne
  have hlt := selfScore_lt hS h0
  rw [Nat.zero_add] at hlt
  have h00 : selfScore S 0 = 0 := rfl
  have := selfScore_mono hS h1
  omega

/-- Strictly below the full prefix score at any proper prefix. -/
theorem selfScore_lt_full {S : List Char} (hS : ∀ c ∈ S, c ∈ alphaNoX) {i : ℕ}
    (h : i < S.length) : selfScore S i < selfScore S S.length := by
  have h1 := selfScore_lt hS h
  have h2 := selfScore_mono hS (show i + 1 ≤ S.length from h)
  omega

/-- Row 0 of the DP matrices is the boundary cell. -/
theorem swRow_zero (q t : List Char) (j : ℕ) : swRow q t 0 j = baseCell := rfl

/-- Column 0 of the DP matrices is the boundary cell. -/
theorem swRow_succ_zero (q t : List Char) (i : ℕ) : swRow q t (i + 1) 0 = baseCell := rfl

/-- One-step unfolding of the Smith–Waterman recurrence at an interior cell. -/
theorem swRow_succ_succ (q t : List Char) (i j : ℕ) :
    swRow q t (i + 1) (j + 1) =
      (max (max 0 ((swRow q t i j).1 + blosum62 (q.getD i 'A') (t.getD j 'A')))
        (max (max ((swRow q t (i + 1) j).1 - 11) ((swRow q t (i + 1) j).2.1 - 1))
          (max ((swRow q t i (j + 1)).1 - 11) ((swRow q t i (j + 1)).2.2 - 1))),
       max ((swRow q t (i + 1) j).1 - 11) ((swRow q t (i + 1) j).2.1 - 1),
       max ((swRow q t i (j + 1)).1 - 11) ((swRow q t i (j + 1)).2.2 - 1)) := rfl

/-- Upper bounds on the DP matrices of a self-alignment over the positive
alphabet: H is bounded by the prefix score of the shorter coordinate, and the
gap states are strictly below it. -/
theorem swInv {S : List Char} (hS : ∀ c ∈ S, c ∈ alphaNoX) :
    ∀ i, i ≤ S.length → ∀ j, j ≤ S.length →
      (swRow S S i j).1 ≤ selfScore S (min i j) ∧
      (swRow S S i j).2.1 ≤ selfScore S (min i j) - 1 ∧
      (swRow S S i j).2.2 ≤ selfScore S (min i j) - 1 := by
  intro i
  induction i with
  | zero =>
    intro _ j _
    rw [swRow_zero]
    have h0 : selfScore S (min 0 j) = 0 := by rw [Nat.zero_min]; rfl
    rw [h0]
    refine ⟨le_refl 0, ?_, ?_⟩ <;> norm_num [baseCell, negB]
  | succ i ih =>
    intro hi1
    have hi : i ≤ S.length := by omega
    intro j
    induction j with
    | zero =>
      intro _
      rw [swRow_succ_zero]
      have h0 : selfScore S (min (i + 1) 0) = 0 := by rw [Nat.min_zero]; rfl
      rw [h0]
      refine ⟨le_refl 0, ?_, ?_⟩ <;> norm_num [baseCell, negB]
    | succ j ihj =>
      intro hj1
      have hj : j ≤ S.length := by omega
      have hL := ihj hj
      have hD := ih hi j hj
      have hU := ih hi (j + 1) hj1
      have hiL : i < S.length := by omega
      have hjL : j < S.length := by omega
      have hdom := blosum_dom _ (hS _ (getD_mem_of_lt hiL 'A')) _
        (hS _ (getD_mem_of_lt hjL 'A'))
      have hmin : min (i + 1) (j + 1) = min i j + 1 := Nat.succ_min_succ i j
      have hmono1 : selfScore S (min (i + 1) j) ≤ selfScore S (min i j + 1) :=
        selfScore_mono hS (by omega)
      have hmono2 : selfScore S (min i (j + 1)) ≤ selfScore S (min i j + 1) :=
        selfScore_mono hS (by omega)
      have hnn : 0 ≤ selfScore S (min i j + 1) := by
    
        have h00 : selfScore S 0 = 0 := rfl
        have := selfScore_mono hS (Nat.zero_le (min i j + 1))
        omega
      have hdiag : (swRow S S i j).1 + blosum62 (S.getD i 'A') (S.getD j 'A') ≤
          selfScore S (min i j + 1) := by
        rcases Nat.le_total i j with hij | hij
        · have e1 : min i j = i := Nat.min_eq_left hij
          have e2 : selfScore S (min i j + 1) =
              selfScore S (min i j) + blosum62 (S.getD i 'A') (S.getD i 'A') := by
            rw [e1, selfScore_succ hiL]
          have h1 := hD.1
          have h2 := hdom.1
          omega
        · have e1 : min i j = j := Nat.min_eq_right hij
          have e2 : selfScore S (min i j + 1) =
              selfScore S (min i j) + blosum62 (S.getD j 'A') (S.getD j 'A') := by
            rw [e1, selfScore_succ hjL]
          have h1 := hD.1
          have h2 := hdom.2
          omega
      rw [swRow_succ_succ, hmin]
      obtain ⟨hL1, hL2, -⟩ := hL
      obtain ⟨hU1, -, hU3⟩ := hU
      refine ⟨?_, ?_, ?_⟩
      · dsimp only
        simp only [max_le_iff]
        refine ⟨⟨hnn, hdiag⟩, ⟨?_, ?_⟩, ?_, ?_⟩ <;> omega
      · dsimp only
        simp only [max_le_iff]
        refine ⟨?_, ?_⟩ <;> omega
      · dsimp only
        simp only [max_le_iff]
        refine ⟨?_, ?_⟩ <;> omega

/-- The DP diagonal of a self-alignment attains exactly the prefix score. -/
theorem swDiag {S : List Char} (hS : ∀ c ∈ S, c ∈ alphaNoX) :
    ∀ i, i ≤ S.length → (swRow S S i i).1 = selfScore S i := by
  intro i
  induction i with
  | zero =>
    intro _
    rfl
  | succ i ih =>
    intro hi1
    have hi : i ≤ S.length := by omega
    have hiL : i < S.length := by omega
    have hD := ih hi
    have hL := swInv hS (i + 1) hi1 i hi
    have hU := swInv hS i hi (i + 1) hi1
    have hne : S ≠ [] := by
      intro h
      rw [h] at hiL
      simp at hiL
    have hpos : 0 < selfScore S (i + 1) := selfScore_pos hS hne (by omega)
    have hsucc : selfScore S (i + 1) =
        selfScore S i + blosum62 (S.getD i 'A') (S.getD i 'A') := selfScore_succ hiL
    have hminL : min (i + 1) i = i := by omega
    have hminU : min i (i + 1) = i := by omega
    rw [hminL] at hL
    rw [hminU] at hU
    have hPmono : selfScore S i ≤ selfScore S (i + 1) := selfScore_mono hS (by omega)
    rw [swRow_succ_succ]
    dsimp only
    rw [hD]
    obtain ⟨hL1, hL2, -⟩ := hL
    obtain ⟨hU1, -, hU3⟩ := hU
    omega

/-- Traceback stops at the matrix border. -/
theorem tb_mh_zero (q t : List Char) {i j : ℕ} (h : i = 0 ∨ j = 0) :
    traceback q t i j TbLayer.mh = [] := by
  rw [traceback.eq_1, dif_pos h]

/-- Traceback takes the diagonal step when the cell value was produced by the
diagonal extension. -/
theorem tb_mh_diag {q t : List Char} {i j : ℕ} (hi : ¬i = 0) (hj : ¬j = 0)
    (hpos : ¬(swRow q t i j).1 ≤ 0)
    (hdiag : (swRow q t i j).1 = (swRow q t (i - 1) (j - 1)).1 +
      blosum62 (q.getD (i - 1) 'A') (t.getD (j - 1) 'A')) :
    traceback q t i j TbLayer.mh =
      traceback q t (i - 1) (j - 1) TbLayer.mh ++ [(i - 1, j - 1)] := by
  rw [traceback.eq_1, dif_neg (not_or.mpr ⟨hi, hj⟩)]
  dsimp only
  rw [if_neg hpos, if_pos hdiag]

/-- The traceback of a self-alignment over the positive alphabet is the full
diagonal. -/
theorem tb_diag {S : List Char} (hS : ∀ c ∈ S, c ∈ alphaNoX) :
    ∀ i, i ≤ S.length →
      traceback S S i i TbLayer.mh = (List.range i).map (fun k => (k, k)) := by
  intro i
  induction i with
  | zero =>
    intro _
    rw [tb_mh_zero S S (Or.inl rfl)]
    rfl
  | succ i ih =>
    intro hi1
    have hi : i ≤ S.length := by omega
    have hne : S ≠ [] := by
      intro h
      rw [h] at hi1
      simp at hi1
    have hdia := swDiag hS (i + 1) hi1
    have hdia0 := swDiag hS i hi
    have hpos : ¬(swRow S S (i + 1) (i + 1)).1 ≤ 0 := by
      rw [hdia]
      have := selfScore_pos hS hne (show 1 ≤ i + 1 by omega)
      omega
    have hstep : (swRow S S (i + 1) (i + 1)).1 =
        (swRow S S (i + 1 - 1) (i + 1 - 1)).1 +
          blosum62 (S.getD (i + 1 - 1) 'A') (S.getD (i + 1 - 1) 'A') := by
      simp only [Nat.add_sub_cancel]
      rw [hdia, hdia0, ← selfScore_succ (by omega)]
    rw [tb_mh_diag (by omega) (by omega) hpos hstep]
    simp only [Nat.add_sub_cancel]
    rw [ih hi, List.range_succ]
    simp

/-- The scan value always equals the score of the scan cell. -/
theorem pickBest_val (score : ℕ × ℕ → Int) :
    ∀ (l : List (ℕ × ℕ)) (acc : (ℕ × ℕ) × Int), acc.2 = score acc.1 →
      (pickBest score acc l).2 = score (pickBest score acc l).1 := by
  intro l
  induction l with
  | nil =>
    intro acc h
    exact h
  | cons ij rest ih =>
    intro acc h
    simp only [pickBest]
    split
    · exact ih _ rfl
    · exact ih _ h

/-- The scan value never decreases. -/
theorem pickBest_acc_le (score : ℕ × ℕ → Int) :
    ∀ (l : List (ℕ × ℕ)) (acc : (ℕ × ℕ) × Int), acc.2 ≤ (pickBest score acc l).2 := by
  intro l
  induction l with
  | nil =>
    intro acc
    exact le_refl _
  | cons ij rest ih =>
    intro acc
    simp only [pickBest]
    split
    · rename_i h
      exact le_trans (le_of_lt h) (ih (ij, score ij))
    · exact ih acc

/-- The scan value dominates every scanned cell's score. -/
theorem pickBest_le (score : ℕ × ℕ → Int) :
    ∀ (l : List (ℕ × ℕ)) (acc : (ℕ × ℕ) × Int), ∀ ij ∈ l,
      score ij ≤ (pickBest score acc l).2 := by
  intro l
  induction l with
  | nil =>
    intro acc ij h
    simp at h
  | cons a rest ih =>
    intro acc ij hij
    simp only [pickBest]
    rcases List.mem_cons.mp hij with h | h
    · subst h
      split
      · exact le_trans (le_refl _) (pickBest_acc_le score rest (ij, score ij))
      · rename_i hgt
        push_neg at hgt
        exact le_trans hgt (pickBest_acc_le score rest acc)
    · split
      · exact ih _ ij h
      · exact ih _ ij h

/-- The scan cell is the initial cell or one of the scanned cells. -/
theorem pickBest_mem (score : ℕ × ℕ → Int) :
    ∀ (l : List (ℕ × ℕ)) (acc : (ℕ × ℕ) × Int),
      (pickBest score acc l).1 = acc.1 ∨ (pickBest score acc l).1 ∈ l := by
  intro l
  induction l with
  | nil =>
    intro acc
    exact Or.inl rfl
  | cons a rest ih =>
    intro acc
    simp only [pickBest]
    split
    · rcases ih (a, score a) with h | h
      · exact Or.inr (by rw [h]; exact List.mem_cons_self a rest)
      · exact Or.inr (List.mem_cons_of_mem _ h)
    · rcases ih acc with h | h
      · exact Or.inl h
      · exact Or.inr (List.mem_cons_of_mem _ h)

/-- Membership in the row-major cell list. -/
theorem mem_dpCells {n m i j : ℕ} : (i, j) ∈ dpCells n m ↔ i ≤ n ∧ j ≤ m := by
  unfold dpCells
  simp only [List.mem_flatMap, List.mem_map, List.mem_range, Prod.mk.injEq]
  constructor
  · rintro ⟨a, ha, b, hb, rfl, rfl⟩
    omega
  · rintro ⟨h1, h2⟩
    exact ⟨i, by omega, ⟨j, by omega, rfl, rfl⟩⟩

/-- For a self-alignment over the positive alphabet, the global maximum cell
is the bottom-right corner, with the full prefix score as its value. -/
theorem bestCell_self {S : List Char} (hS : ∀ c ∈ S, c ∈ alphaNoX) :
    bestCell S S = ((S.length, S.length), selfScore S S.length) := by
  unfold bestCell
  set score := fun ij : ℕ × ℕ => (swRow S S ij.1 ij.2).1 with hscore
  set b := pickBest score ((0, 0), 0) (dpCells S.length S.length) with hbdef
  have hval : b.2 = score b.1 := pickBest_val score (dpCells S.length S.length) ((0, 0), 0) rfl
  have hgen : score (S.length, S.length) ≤ b.2 :=
    pickBest_le score (dpCells S.length S.length) ((0, 0), 0) (S.length, S.length)
      (mem_dpCells.mpr ⟨le_refl S.length, le_refl S.length⟩)
  have hdiag : score (S.length, S.length) = selfScore S S.length :=
    swDiag hS S.length (le_refl S.length)
  have hmem : b.1 ∈ dpCells S.length S.length := by
    rcases pickBest_mem score (dpCells S.length S.length) ((0, 0), 0) with h | h
    · rw [h]
      exact mem_dpCells.mpr ⟨Nat.zero_le S.length, Nat.zero_le S.length⟩
    · exact h
  have hij : b.1.1 ≤ S.length ∧ b.1.2 ≤ S.length := by
    have := mem_dpCells.mp (by rw [Prod.mk.eta]; exact hmem)
    exact this
  have hbound : score b.1 ≤ selfScore S (min b.1.1 b.1.2) :=
    (swInv hS b.1.1 hij.1 b.1.2 hij.2).1
  have hminle : selfScore S (min b.1.1 b.1.2) ≤ selfScore S S.length :=
    selfScore_mono hS (by omega)
  have hle1 : b.2 ≤ selfScore S S.length := by
    rw [hval]
    exact le_trans hbound hminle
  have hv : b.2 = selfScore S S.length := le_antisymm hle1 (hdiag ▸ hgen)
  have hminn : min b.1.1 b.1.2 = S.length := by
    by_contra hne'
    have hlt : min b.1.1 b.1.2 < S.length := by omega
    have hstrict := selfScore_lt_full hS hlt
    have hb2 : b.2 ≤ selfScore S (min b.1.1 b.1.2) := by
      rw [hval]
      exact hbound
    omega
  have hc : b.1 = (S.length, S.length) := by
    have h1 : b.1.1 = S.length := by omega
    have h2 : b.1.2 = S.length := by omega
    rw [← @Prod.mk.eta ℕ ℕ b.1, h1, h2]
  exact Prod.ext_iff.mpr ⟨hc, hv⟩

/-- Compressing a contiguous diagonal run extends the open region to its
end. -/
theorem compressGo_diag (a : ℕ) :
    ∀ (m len : ℕ),
      compressGo a a len ((List.range' (a + len) m).map (fun k => (k, k))) =
        [⟨a, a + len + m, a, a + len + m⟩] := by
  intro m
  induction m with
  | zero =>
    intro len
    simp [compressGo]
  | succ m ih =>
    intro len
    rw [List.range'_succ]
    simp only [List.map_cons]
    rw [compressGo, if_pos ⟨rfl, rfl⟩]
    have h1 : a + len + 1 = a + (len + 1) := by omega
    rw [h1, ih (len + 1)]
    have h2 : a + (len + 1) + m = a + len + (m + 1) := by omega
    rw [h2]

/-- The compressed region list of the full diagonal is one region covering
the whole sequence. -/
theorem compress_diag {i : ℕ} (h : 1 ≤ i) :
    compress ((List.range i).map (fun k => (k, k))) = [⟨0, i, 0, i⟩] := by
  obtain ⟨m, rfl⟩ : ∃ m, i = m + 1 := ⟨i - 1, by omega⟩
  rw [List.range_eq_range', List.range'_succ]
  simp only [List.map_cons]
  rw [compress]
  have := compressGo_diag 0 m 1
  simp only [Nat.zero_add] at this
  rw [this]
  have h2 : 1 + m = m + 1 := by omega
  rw [h2]

/-- Region statistics of the full self-alignment region: every position is
compared and identical. -/
theorem regionStats_diag (S : List Char) (n : ℕ) :
    regionStats S S [⟨0, n, 0, n⟩] = (n, n) := by
  unfold regionStats
  simp only [List.foldl_cons, List.foldl_nil, Nat.sub_zero, min_self, Nat.zero_add]
  have hcnt : List.countP (fun i => S.getD i '?' == S.getD i '?') (List.range n)
      = (List.range n).length := List.countP_eq_length.mpr (fun a _ => beq_self_eq_true _)
  rw [List.length_range] at hcnt
  rw [hcnt]

/-- Alignment length of the full self-alignment region. -/
theorem alignmentLength_diag (n : ℕ) : alignmentLength [⟨0, n, 0, n⟩] = n := by
  simp [alignmentLength]

/-- Banker's rounding of an integer is that integer. -/
theorem roundHalfEven_intCast (k : ℤ) : roundHalfEven (k : ℚ) = k := by
  unfold roundHalfEven
  rw [Int.floor_intCast]
  rw [if_pos]
  rw [sub_self]
  norm_num

/-- Rounding the exact value 100 at any precision gives 100. -/
theorem roundTo_hundred (d : ℕ) : roundTo d (100 : ℚ) = 100 := by
  unfold roundTo
  have h1 : (100 : ℚ) * 10 ^ d = ((100 * 10 ^ d : ℤ) : ℚ) := by push_cast; ring
  rw [h1, roundHalfEven_intCast]
  push_cast
  rw [mul_div_assoc, div_self (by positivity : (10 : ℚ) ^ d ≠ 0), mul_one]

/-- Percent identity when everything compared matches. -/
theorem percentIdentity_self {n : ℕ} (h : n ≠ 0) : percentIdentity n n = 100 := by
  unfold percentIdentity
  rw [if_neg h, div_self (by exact_mod_cast h), one_mul]

/-- Coverage of the whole query. -/
theorem queryCoverage_self {n : ℕ} (h : n ≠ 0) : queryCoverage 0 n n = 100 := by
  unfold queryCoverage
  rw [if_neg h]
  simp only [Nat.sub_zero]
  rw [div_self (by exact_mod_cast h), one_mul]

/-- Metrics of the per-entry alignment when the cleaned query and the entry's
cleaned stored sequence are the same nonempty string over the 22-letter
positive alphabet: a perfect self-match of the whole sequence. -/
theorem mkHit_self {S : List Char} (hS : ∀ c ∈ S, c ∈ alphaNoX) (hne : S ≠ [])
    {e : EnzymeSequence} (he : e.sequence = S) :
    (mkHit S e).percent_identity = 100 ∧
    (mkHit S e).alignment_length = S.length ∧
    (mkHit S e).query_cover = 100 ∧
    (mkHit S e).max_score = selfScore S S.length := by
  have hclean : cleanSequence e.sequence = S := by
    rw [he]
    exact clean_fixed (fun c hc => alphaNoX_subset c (hS c hc))
  have hn : 1 ≤ S.length := List.length_pos.mpr hne
  have hn0 : S.length ≠ 0 := by omega
  simp only [mkHit]
  rw [hclean, bestCell_self hS]
  dsimp only
  rw [tb_diag hS S.length (le_refl _), compress_diag hn, regionStats_diag,
    alignmentLength_diag]
  dsimp only [regionSpan, List.getLastD_nil]
  refine ⟨?_, rfl, ?_, rfl⟩
  · rw [percentIdentity_self hn0, roundTo_hundred]
  · rw [queryCoverage_self hn0, roundTo_hundred]

/-- C1 (amended): for every nonempty sequence S over the residue alphabet
without the ambiguity code X, the search's per-entry alignment of the
normalized query S against a corpus entry storing S yields
percent_identity = 100.0 and alignment_length = the length of S (the
normalizer fixes S, and self-alignment is a perfect local match of the whole
sequence).  The original claim fails for sequences containing X, whose
BLOSUM62 self-score is negative. -/
theorem c1_self_alignment (S : List Char) (hne : S ≠ [])
    (hS : ∀ c ∈ S, c ∈ alphaNoX) (e : EnzymeSequence) (he : e.sequence = S) :
    cleanSequence S = S ∧
    (mkHit (cleanSequence S) e).percent_identity = 100 ∧
    (mkHit (cleanSequence S) e).alignment_length = S.length := by
  have hfix : cleanSequence S = S := clean_fixed (fun c hc => alphaNoX_subset c (hS c hc))
  refine ⟨hfix, ?_, ?_⟩
  · rw [hfix]
    exact (mkHit_self hS hne he).1
  · rw [hfix]
    exact (mkHit_self hS hne he).2.1

/-- Witness for C1 at the concrete sequence MK and a corpus entry storing
exactly MK. -/
theorem c1_self_alignment_witness :
    (mkHit (cleanSequence ['M', 'K']) enzymeMK).percent_identity = 100 ∧
    (mkHit (cleanSequence ['M', 'K']) enzymeMK).alignment_length = 2 :=
  ⟨(c1_self_alignment ['M', 'K'] (by decide) (by decide) enzymeMK rfl).2.1,
   (c1_self_alignment ['M', 'K'] (by decide) (by decide) enzymeMK rfl).2.2⟩

/-- Counterexample to C1 as originally stated: for the query X (a legal
sequence over the normalized residue alphabet) searched against a corpus
containing exactly the entry storing X, no returned hit for that entry has
percent_identity = 100 and alignment_length = 1; the entry's alignment is
empty (score 0, identity 0, length 0) because the X-X substitution score is
negative. -/
theorem c1_counterexample :
    ¬ ∃ h ∈ (align ['X'] [enzymeX] [] false 100 0).1,
      h.percent_identity = 100 ∧ h.alignment_length = 1 := by
  have hcl : cleanSequence ['X'] = ['X'] := by decide
  have hbest : bestCell ['X'] ['X'] = ((0, 0), 0) := by decide
  have htb : traceback ['X'] ['X'] 0 0 TbLayer.mh = [] :=
    tb_mh_zero ['X'] ['X'] (Or.inl rfl)
  have hhit : mkHit ['X'] enzymeX =
      { plaszyme_id := "X0001", accession := "A0A0K8P6T7",
        description := "ambiguous enzyme", organism := "Unknown",
        plastic_types := ["PET"], max_score := 0, query_cover := 0,
        percent_identity := 0, alignment_length := 0, has_structure := true } := by
    simp only [mkHit]
    rw [show cleanSequence enzymeX.sequence = ['X'] from by decide, hbest]
    dsimp only
    rw [htb]
    simp only [compress, regionSpan, regionStats, alignmentLength, List.foldl_nil,
      List.map_nil, List.sum_nil, enzymeX]
    norm_num [BlastHit.mk.injEq, queryCoverage, percentIdentity, roundTo, roundHalfEven]
  have hah : alignHit ['X'] 0 enzymeX = some (mkHit ['X'] enzymeX) := by
    simp only [alignHit]
    rw [if_neg (by decide : ¬enzymeX.sequence.isEmpty = true)]
    rw [if_neg (by rw [hhit]; norm_num :
      ¬(mkHit ['X'] enzymeX).percent_identity < (0 : ℚ))]
  have halign : (align ['X'] [enzymeX] [] false 100 0).1 = [mkHit ['X'] enzymeX] := by
    simp only [align]
    rw [hcl]
    rw [if_neg (by decide : ¬(['X'] : List Char).length = 0)]
    rw [show loadSequences [enzymeX] [] false = [enzymeX] from by decide]
    simp only [candidateHits, List.filterMap_cons, List.filterMap_nil, hah]
    simp [List.mergeSort_singleton]
  rw [halign]
  rintro ⟨h, hmem, hid, hlen⟩
  rw [List.mem_singleton] at hmem
  subst hmem
  rw [hhit] at hid
  norm_num at hid

/-- C9: when the cleaned query is empty, the core align operation returns the
triple (empty hit list, total count 0, filtered count 0) regardless of the
corpus, so the reported total corpus count is 0 rather than the corpus
size. -/
theorem c9_empty_query_counts (raw : List Char) (db : List EnzymeSequence)
    (pt : List String) (rs : Bool) (mr : ℕ) (thr : ℚ)
    (h : cleanSequence raw = []) :
    align raw db pt rs mr thr = ([], 0, 0) := by
  simp [align, h]

/-- Witness for C9: a whitespace query against a nonempty corpus reports a
total count of 0. -/
theorem c9_empty_query_counts_witness :
    align [' '] [enzymeMK] [] false 10 30 = ([], 0, 0) :=
  c9_empty_query_counts [' '] [enzymeMK] [] false 10 30 (by decide)

/-- C5: a search request whose query normalizes to the empty string returns
the invalid-query error immediately, with no hits, and the outcome does not
depend on the corpus or on any other search parameter (no alignment is
performed). -/
theorem c5_invalid_query (raw : List Char) (db db2 : List EnzymeSequence)
    (pt pt2 : List String) (rs rs2 : Bool) (mr mr2 : ℕ) (thr thr2 : ℚ)
    (h : cleanSequence raw = []) :
    blastSearch raw db pt rs mr thr = Except.error SearchError.invalidQuery ∧
    blastSearch raw db pt rs mr thr = blastSearch raw db2 pt2 rs2 mr2 thr2 := by
  constructor
  · simp [blastSearch, h]
  · simp [blastSearch, h]

/-- Witness for C5 on the concrete query 123. -/
theorem c5_invalid_query_witness :
    blastSearch ['1', '2', '3'] [enzymeMK, enzymeX] [] false 10 30 =
      Except.error SearchError.invalidQuery :=
  (c5_invalid_query ['1', '2', '3'] [enzymeMK, enzymeX] [] [] [] false false
    10 10 30 30 (by decide)).1

/-- C4: the normalizer drops header lines, keeps only alphabetic characters
upper-cased, and coerces everything outside the 23-letter alphabet to X;
consequently every output character lies in the 23-letter alphabet, and the
output is empty exactly when no alphabetic character occurs outside header
lines. -/
theorem c4_normalize (raw : List Char) :
    (∀ c ∈ cleanSequence raw, c ∈ aaOrder) ∧
    (cleanSequence raw = [] ↔
      ∀ l ∈ splitOnChar '\n' (stripChars raw), isHeaderLine l = false →
        ∀ c ∈ l, c.isAlpha = false) := by
  constructor
  · intro c hc
    simp only [cleanSequence, List.mem_map] at hc
    obtain ⟨d, -, rfl⟩ := hc
    exact coerceAA_mem d
  · simp only [cleanSequence]
    rw [List.map_eq_nil_iff, List.map_eq_nil_iff, List.filter_eq_nil_iff]
    constructor
    · intro h l hl hhd c hc
      have hm : c ∈ ((splitOnChar '\n' (stripChars raw)).filter
          (fun l => !isHeaderLine l)).flatten :=
        List.mem_flatten.mpr ⟨l, List.mem_filter.mpr ⟨hl, by rw [hhd]; rfl⟩, hc⟩
      have := h c hm
      simpa using this
    · intro h a ha
      obtain ⟨l, hl, hal⟩ := List.mem_flatten.mp ha
      obtain ⟨hl1, hl2⟩ := List.mem_filter.mp hl
      have hhd : isHeaderLine l = false := by
        cases hx : isHeaderLine l
        · rfl
        · rw [hx] at hl2
          simp at hl2
      have := h l hl1 hhd a hal
      simp [this]

/-- Witness for C4: a concrete normalized character is in the alphabet, and a
concrete input whose only alphabetic characters sit in a header line
normalizes to the empty string. -/
theorem c4_normalize_witness :
    'X' ∈ aaOrder ∧ cleanSequence ['1', '\n', '>', 'A', 'B'] = [] :=
  ⟨(c4_normalize ['>', 'h', 'd', 'r', '\n', 'M', '1', 'u', '?', 'x']).1 'X' (by decide),
   (c4_normalize ['1', '\n', '>', 'A', 'B']).2.mpr (by decide)⟩

/-- C2: the E-value reported for a raw score S is positive infinity when
S is at most 0, and otherwise equals K * m * n * exp(-lambda * S) with
K = 0.041 and lambda = 0.267, where m is the cleaned query length and n is
the total residue count of the post-filter corpus subset. -/
theorem c2_evalue_formula (raw : List Char) (db : List EnzymeSequence)
    (pt : List String) (rs : Bool) (s : ℤ) :
    (s ≤ 0 → searchEValue raw db pt rs s = (⊤ : EReal)) ∧
    (0 < s → searchEValue raw db pt rs s =
      (((41 / 1000 : ℝ) * (cleanSequence raw).length *
        (residueTotal (loadSequences db pt rs)) *
        Real.exp (-(267 / 1000 : ℝ) * s) : ℝ) : EReal)) := by
  constructor
  · intro h
    unfold searchEValue eValue
    rw [if_pos h]
  · intro h
    unfold searchEValue eValue
    rw [if_neg (not_le.mpr h)]

/-- Witness for C2 at concrete scores -3 and 7. -/
theorem c2_evalue_formula_witness :
    searchEValue ['A'] [enzymeMK] [] false (-3) = (⊤ : EReal) ∧
    searchEValue ['A'] [enzymeMK] [] false 7 =
      (((41 / 1000 : ℝ) * (cleanSequence ['A']).length *
        (residueTotal (loadSequences [enzymeMK] [] false)) *
        Real.exp (-(267 / 1000 : ℝ) * (7 : ℤ)) : ℝ) : EReal) :=
  ⟨(c2_evalue_formula ['A'] [enzymeMK] [] false (-3)).1 (by norm_num),
   (c2_evalue_formula ['A'] [enzymeMK] [] false 7).2 (by norm_num)⟩

/-- C7 (amended): holding a positive query length m and a positive corpus
residue total n fixed, the E-value is strictly decreasing in the raw score on
every pair S1 < S2 whose larger score is positive.  The original claim fails
when both scores are nonpositive (both E-values are infinite) and when m or n
is zero (all finite E-values collapse to 0). -/
theorem c7_evalue_strict_anti (m n : ℕ) (s1 s2 : ℤ) (hm : 1 ≤ m) (hn : 1 ≤ n)
    (h12 : s1 < s2) (h2 : 0 < s2) : eValue m n s2 < eValue m n s1 := by
  unfold eValue
  rw [if_neg (by omega : ¬s2 ≤ 0)]
  by_cases h1 : s1 ≤ 0
  · rw [if_pos h1]
    exact EReal.coe_lt_top _
  · rw [if_neg h1]
    rw [EReal.coe_lt_coe_iff]
    have hm' : (1 : ℝ) ≤ (m : ℝ) := by exact_mod_cast hm
    have hn' : (1 : ℝ) ≤ (n : ℝ) := by exact_mod_cast hn
    have hmp : (0 : ℝ) < (41 / 1000 : ℝ) * m * n := by nlinarith
    have hexp : Real.exp (-(267 / 1000 : ℝ) * s2) <
        Real.exp (-(267 / 1000 : ℝ) * s1) := by
      rw [Real.exp_lt_exp]
      have hcast : (s1 : ℝ) < (s2 : ℝ) := by exact_mod_cast h12
      nlinarith
    exact mul_lt_mul_of_pos_left hexp hmp

/-- Witness for C7 at m = n = 1, scores 0 < 1. -/
theorem c7_evalue_strict_anti_witness : eValue 1 1 1 < eValue 1 1 0 :=
  c7_evalue_strict_anti 1 1 0 1 (by norm_num) (by norm_num) (by norm_num) (by norm_num)

/-- Counterexample to C7 as originally stated: for S1 = -2 < S2 = -1 both
E-values are positive infinity, so the strict decrease fails; and with a
zero corpus residue total all positive-score E-values are 0, so it fails
there as well. -/
theorem c7_counterexample :
    ¬(eValue 3 5 (-1) < eValue 3 5 (-2)) ∧ ¬(eValue 1 0 2 < eValue 1 0 1) := by
  constructor
  · unfold eValue
    rw [if_pos (by norm_num : (-1 : ℤ) ≤ 0), if_pos (by norm_num : (-2 : ℤ) ≤ 0)]
    exact lt_irrefl _
  · unfold eValue
    rw [if_neg (by norm_num : ¬(2 : ℤ) ≤ 0), if_neg (by norm_num : ¬(1 : ℤ) ≤ 0)]
    rw [EReal.coe_lt_coe_iff]
    intro hlt
    norm_num at hlt

/-- Traceback stops at a zero cell. -/
theorem tb_mh_stop {q t : List Char} {i j : ℕ} (hij : ¬(i = 0 ∨ j = 0))
    (hpos : (swRow q t i j).1 ≤ 0) : traceback q t i j TbLayer.mh = [] := by
  rw [traceback.eq_1, dif_neg hij]
  dsimp only
  rw [if_pos hpos]

/-- Traceback enters the horizontal-gap state when the cell value came from
E. -/
theorem tb_mh_gapE {q t : List Char} {i j : ℕ} (hij : ¬(i = 0 ∨ j = 0))
    (hpos : ¬(swRow q t i j).1 ≤ 0)
    (hdiag : ¬(swRow q t i j).1 = (swRow q t (i - 1) (j - 1)).1 +
      blosum62 (q.getD (i - 1) 'A') (t.getD (j - 1) 'A'))
    (he : (swRow q t i j).1 = (swRow q t i j).2.1) :
    traceback q t i j TbLayer.mh = traceback q t i j TbLayer.me := by
  rw [traceback.eq_1, dif_neg hij]
  dsimp only
  rw [if_neg hpos, if_neg hdiag, if_pos he]

/-- Traceback enters the vertical-gap state otherwise. -/
theorem tb_mh_gapF {q t : List Char} {i j : ℕ} (hij : ¬(i = 0 ∨ j = 0))
    (hpos : ¬(swRow q t i j).1 ≤ 0)
    (hdiag : ¬(swRow q t i j).1 = (swRow q t (i - 1) (j - 1)).1 +
      blosum62 (q.getD (i - 1) 'A') (t.getD (j - 1) 'A'))
    (he : ¬(swRow q t i j).1 = (swRow q t i j).2.1) :
    traceback q t i j TbLayer.mh = traceback q t i j TbLayer.mf := by
  rw [traceback.eq_1, dif_neg hij]
  dsimp only
  rw [if_neg hpos, if_neg hdiag, if_neg he]

/-- Horizontal-gap walk at the border. -/
theorem tb_me_zero (q t : List Char) (i : ℕ) : traceback q t i 0 TbLayer.me = [] := by
  rw [traceback.eq_2, dif_pos rfl]

/-- Horizontal-gap walk re-entering H where the gap was opened. -/
theorem tb_me_open {q t : List Char} {i j : ℕ} (hj : ¬j = 0)
    (h : (swRow q t i j).2.1 = (swRow q t i (j - 1)).1 - 11) :
    traceback q t i j TbLayer.me = traceback q t i (j - 1) TbLayer.mh := by
  rw [traceback.eq_2, dif_neg hj, if_pos h]

/-- Horizontal-gap walk extending the gap. -/
theorem tb_me_ext {q t : List Char} {i j : ℕ} (hj : ¬j = 0)
    (h : ¬(swRow q t i j).2.1 = (swRow q t i (j - 1)).1 - 11) :
    traceback q t i j TbLayer.me = traceback q t i (j - 1) TbLayer.me := by
  rw [traceback.eq_2, dif_neg hj, if_neg h]

/-- Vertical-gap walk at the border. -/
theorem tb_mf_zero (q t : List Char) (j : ℕ) : traceback q t 0 j TbLayer.mf = [] := by
  rw [traceback.eq_3, dif_pos rfl]

/-- Vertical-gap walk re-entering H where the gap was opened. -/
theorem tb_mf_open {q t : List Char} {i j : ℕ} (hi : ¬i = 0)
    (h : (swRow q t i j).2.2 = (swRow q t (i - 1) j).1 - 11) :
    traceback q t i j TbLayer.mf = traceback q t (i - 1) j TbLayer.mh := by
  rw [traceback.eq_3, dif_neg hi, if_pos h]

/-- Vertical-gap walk extending the gap. -/
theorem tb_mf_ext {q t : List Char} {i j : ℕ} (hi : ¬i = 0)
    (h : ¬(swRow q t i j).2.2 = (swRow q t (i - 1) j).1 - 11) :
    traceback q t i j TbLayer.mf = traceback q t (i - 1) j TbLayer.mf := by
  rw [traceback.eq_3, dif_neg hi, if_neg h]

/-- Every matched pair of the traceback lies strictly inside the start cell
(strong induction on the traceback measure). -/
theorem tb_bounds_fuel (q t : List Char) :
    ∀ (N : ℕ) (i j : ℕ) (l : TbLayer), 2 * (i + j) + tbRank l ≤ N →
      ∀ p ∈ traceback q t i j l, p.1 < i ∧ p.2 < j := by
  intro N
  induction N with
  | zero =>
    intro i j l h p hp
    have hi : i = 0 := by
      cases l <;> simp [tbRank] at h <;> omega
    have hj : j = 0 := by
      cases l <;> simp [tbRank] at h <;> omega
    subst hi
    subst hj
    cases l with
    | mh =>
      rw [tb_mh_zero q t (Or.inl rfl)] at hp
      simp at hp
    | me =>
      rw [tb_me_zero] at hp
      simp at hp
    | mf =>
      rw [tb_mf_zero] at hp
      simp at hp
  | succ N ih =>
    intro i j l hN p hp
    cases l with
    | mh =>
      by_cases hij : i = 0 ∨ j = 0
      · rw [tb_mh_zero q t hij] at hp
        simp at hp
      · obtain ⟨hi, hj⟩ := not_or.mp hij
        by_cases hpos : (swRow q t i j).1 ≤ 0
        · rw [tb_mh_stop hij hpos] at hp
          simp at hp
        · by_cases hdiag : (swRow q t i j).1 = (swRow q t (i - 1) (j - 1)).1 +
              blosum62 (q.getD (i - 1) 'A') (t.getD (j - 1) 'A')
          · rw [tb_mh_diag hi hj hpos hdiag] at hp
            rcases List.mem_append.mp hp with h | h
            · have hm : 2 * ((i - 1) + (j - 1)) + tbRank TbLayer.mh ≤ N := by
                simp only [tbRank] at hN ⊢
                omega
              have := ih (i - 1) (j - 1) TbLayer.mh hm p h
              omega
            · rw [List.mem_singleton] at h
              subst h
              show i - 1 < i ∧ j - 1 < j
              omega
          · by_cases he : (swRow q t i j).1 = (swRow q t i j).2.1
            · rw [tb_mh_gapE hij hpos hdiag he] at hp
              exact ih i j TbLayer.me (by simp only [tbRank] at hN ⊢; omega) p hp
            · rw [tb_mh_gapF hij hpos hdiag he] at hp
              exact ih i j TbLayer.mf (by simp only [tbRank] at hN ⊢; omega) p hp
    | me =>
      by_cases hj : j = 0
      · subst hj
        rw [tb_me_zero] at hp
        simp at hp
      · by_cases h : (swRow q t i j).2.1 = (swRow q t i (j - 1)).1 - 11
        · rw [tb_me_open hj h] at hp
          have := ih i (j - 1) TbLayer.mh (by simp only [tbRank] at hN ⊢; omega) p hp
          omega
        · rw [tb_me_ext hj h] at hp
          have := ih i (j - 1) TbLayer.me (by simp only [tbRank] at hN ⊢; omega) p hp
          omega
    | mf =>
      by_cases hi : i = 0
      · subst hi
        rw [tb_mf_zero] at hp
        simp at hp
      · by_cases h : (swRow q t i j).2.2 = (swRow q t (i - 1) j).1 - 11
        · rw [tb_mf_open hi h] at hp
          have := ih (i - 1) j TbLayer.mh (by simp only [tbRank] at hN ⊢; omega) p hp
          omega
        · rw [tb_mf_ext hi h] at hp
          have := ih (i - 1) j TbLayer.mf (by simp only [tbRank] at hN ⊢; omega) p hp
          omega

/-- Bounds on the traceback pairs, stated without the fuel. -/
theorem tb_bounds (q t : List Char) (i j : ℕ) (l : TbLayer) :
    ∀ p ∈ traceback q t i j l, p.1 < i ∧ p.2 < j :=
  tb_bounds_fuel q t (2 * (i + j) + tbRank l) i j l (le_refl _)

/-- Regions produced by the compression end within any bound that dominates
all pair coordinates. -/
theorem compressGo_qe_le {n : ℕ} :
    ∀ (pairs : List (ℕ × ℕ)) (a b len : ℕ), (∀ p ∈ pairs, p.1 < n) →
      a + len ≤ n → ∀ r ∈ compressGo a b len pairs, r.qe ≤ n := by
  intro pairs
  induction pairs with
  | nil =>
    intro a b len _ hlen r hr
    simp only [compressGo] at hr
    rw [List.mem_singleton] at hr
    subst hr
    exact hlen
  | cons p ps ih =>
    intro a b len hp hlen r hr
    obtain ⟨x, y⟩ := p
    have hx : x < n := hp (x, y) (List.mem_cons_self _ _)
    simp only [compressGo] at hr
    split at hr
    · rename_i hxy
      refine ih a b (len + 1) (fun p hp' => hp p (List.mem_cons_of_mem _ hp')) ?_ r hr
      have hxa : x = a + len := hxy.1
      omega
    · rcases List.mem_cons.mp hr with h | h
      · subst h
        exact hlen
      · exact ih x y 1 (fun p hp' => hp p (List.mem_cons_of_mem _ hp')) (by omega) r h

/-- Regions of a compressed pair list end within any bound dominating the pair
coordinates. -/
theorem compress_qe_le {n : ℕ} (pairs : List (ℕ × ℕ)) (hp : ∀ p ∈ pairs, p.1 < n) :
    ∀ r ∈ compress pairs, r.qe ≤ n := by
  cases pairs with
  | nil =>
    intro r hr
    simp [compress] at hr
  | cons p ps =>
    obtain ⟨x, y⟩ := p
    have hx : x < n := hp (x, y) (List.mem_cons_self _ _)
    simp only [compress]
    exact compressGo_qe_le ps x y 1 (fun p hp' => hp p (List.mem_cons_of_mem _ hp'))
      (by omega)

/-- Banker's rounding respects an integer upper bound. -/
theorem roundHalfEven_le {x : ℚ} {k : ℤ} (h : x ≤ (k : ℚ)) : roundHalfEven x ≤ k := by
  have hk : (⌊(k : ℚ)⌋ : ℤ) = k := Int.floor_intCast k
  have hf : ⌊x⌋ ≤ k := by
    have := Int.floor_le_floor h
    omega
  have hfx : (↑⌊x⌋ : ℚ) ≤ x := Int.floor_le x
  simp only [roundHalfEven]
  split
  · exact hf
  · rename_i hr
    push_neg at hr
    have hlt : ⌊x⌋ < k := by
      rcases lt_or_eq_of_le hf with h' | h'
      · exact h'
      · exfalso
        rw [h'] at hfx
        have hx : x = (k : ℚ) := le_antisymm h hfx
        rw [h', hx] at hr
        norm_num at hr
    split
    · omega
    · split <;> omega

/-- Banker's rounding respects an integer lower bound. -/
theorem le_roundHalfEven {x : ℚ} {k : ℤ} (h : (k : ℚ) ≤ x) : k ≤ roundHalfEven x := by
  have hf : k ≤ ⌊x⌋ := Int.le_floor.mpr h
  simp only [roundHalfEven]
  split
  · exact hf
  · split
    · omega
    · split <;> omega

/-- Rounding at any precision keeps a value of [0, 100] inside [0, 100]. -/
theorem roundTo_bounds {d : ℕ} {x : ℚ} (h0 : 0 ≤ x) (h100 : x ≤ 100) :
    0 ≤ roundTo d x ∧ roundTo d x ≤ 100 := by
  unfold roundTo
  have hp : (0 : ℚ) < 10 ^ d := by positivity
  have hle : roundHalfEven (x * 10 ^ d) ≤ 100 * 10 ^ d := by
    apply roundHalfEven_le
    push_cast
    nlinarith
  have hge : (0 : ℤ) ≤ roundHalfEven (x * 10 ^ d) := by
    apply le_roundHalfEven
    push_cast
    nlinarith
  constructor
  · exact div_nonneg (by exact_mod_cast hge) hp.le
  · rw [div_le_iff₀ hp]
    calc ((roundHalfEven (x * 10 ^ d) : ℤ) : ℚ) ≤ ((100 * 10 ^ d : ℤ) : ℚ) := by
          exact_mod_cast hle
      _ = 100 * 10 ^ d := by push_cast; ring

/-- Percent identity of a count bounded by the comparison total lies in
[0, 100]. -/
theorem percentIdentity_bounds {a b : ℕ} (h : a ≤ b) :
    0 ≤ percentIdentity a b ∧ percentIdentity a b ≤ 100 := by
  unfold percentIdentity
  split
  · norm_num
  · rename_i hb
    have hb' : (0 : ℚ) < b := by
      have := Nat.pos_of_ne_zero hb
      exact_mod_cast this
    constructor
    · positivity
    · have h1 : (a : ℚ) ≤ (b : ℚ) := by exact_mod_cast h
      rw [div_mul_eq_mul_div, div_le_iff₀ hb']
      nlinarith

/-- Query coverage lies in [0, 100] whenever the span end is within the query
length. -/
theorem queryCoverage_bounds (qs : ℕ) {qe n : ℕ} (h : qe ≤ n) :
    0 ≤ queryCoverage qs qe n ∧ queryCoverage qs qe n ≤ 100 := by
  unfold queryCoverage
  split
  · norm_num
  · rename_i hn
    have hn' : (0 : ℚ) < n := by
      have := Nat.pos_of_ne_zero hn
      exact_mod_cast this
    constructor
    · positivity
    · have h1 : ((qe - qs : ℕ) : ℚ) ≤ (n : ℚ) := by
        have : qe - qs ≤ n := by omega
        exact_mod_cast this
      rw [div_mul_eq_mul_div, div_le_iff₀ hn']
      nlinarith

/-- The identical-position count never exceeds the compared-position count. -/
theorem regionStats_le (q t : List Char) (regions : List Region) :
    (regionStats q t regions).1 ≤ (regionStats q t regions).2 := by
  unfold regionStats
  have key : ∀ (rs : List Region) (acc : ℕ × ℕ), acc.1 ≤ acc.2 →
      (rs.foldl
        (fun acc r =>
          let len := min (r.qe - r.qs) (r.te - r.ts)
          (acc.1 + (List.range len).countP
              (fun i => q.getD (r.qs + i) '?' == t.getD (r.ts + i) '?'),
           acc.2 + len)) acc).1 ≤
      (rs.foldl
        (fun acc r =>
          let len := min (r.qe - r.qs) (r.te - r.ts)
          (acc.1 + (List.range len).countP
              (fun i => q.getD (r.qs + i) '?' == t.getD (r.ts + i) '?'),
           acc.2 + len)) acc).2 := by
    intro rs
    induction rs with
    | nil =>
      intro acc h
      exact h
    | cons r rs ih =>
      intro acc h
      simp only [List.foldl_cons]
      apply ih
      have hc : List.countP (fun i => q.getD (r.qs + i) '?' == t.getD (r.ts + i) '?')
          (List.range (min (r.qe - r.qs) (r.te - r.ts))) ≤
          (List.range (min (r.qe - r.qs) (r.te - r.ts))).length := List.countP_le_length _
      rw [List.length_range] at hc
      dsimp only
      omega
  exact key regions (0, 0) (le_refl 0)

/-- The best cell's coordinates are inside the matrix. -/
theorem bestCell_le (q t : List Char) :
    (bestCell q t).1.1 ≤ q.length ∧ (bestCell q t).1.2 ≤ t.length := by
  unfold bestCell
  rcases pickBest_mem (fun ij => (swRow q t ij.1 ij.2).1)
      (dpCells q.length t.length) ((0, 0), 0) with h | h
  · rw [h]
    exact ⟨Nat.zero_le _, Nat.zero_le _⟩
  · exact mem_dpCells.mp (by rw [Prod.mk.eta]; exact h)

/-- Both percentage metrics of every per-entry alignment lie in [0, 100]. -/
theorem mkHit_bounds (query : List Char) (e : EnzymeSequence) :
    0 ≤ (mkHit query e).query_cover ∧ (mkHit query e).query_cover ≤ 100 ∧
    0 ≤ (mkHit query e).percent_identity ∧ (mkHit query e).percent_identity ≤ 100 := by
  have hpairs : ∀ p ∈ traceback query (cleanSequence e.sequence)
      (bestCell query (cleanSequence e.sequence)).1.1
      (bestCell query (cleanSequence e.sequence)).1.2 TbLayer.mh,
      p.1 < query.length := by
    intro p hp
    have h1 := (tb_bounds query (cleanSequence e.sequence) _ _ TbLayer.mh p hp).1
    have h2 := (bestCell_le query (cleanSequence e.sequence)).1
    omega
  have hqe := compress_qe_le _ hpairs
  have hspan : (regionSpan (compress (traceback query (cleanSequence e.sequence)
      (bestCell query (cleanSequence e.sequence)).1.1
      (bestCell query (cleanSequence e.sequence)).1.2 TbLayer.mh))).2 ≤
      query.length := by
    cases hc : compress (traceback query (cleanSequence e.sequence)
        (bestCell query (cleanSequence e.sequence)).1.1
        (bestCell query (cleanSequence e.sequence)).1.2 TbLayer.mh) with
    | nil => simp [regionSpan]
    | cons r rs =>
      have hm : rs.getLastD r ∈ r :: rs := List.getLastD_mem_cons rs r
      simp only [regionSpan]
      exact hqe _ (hc ▸ hm)
  have hid := regionStats_le query (cleanSequence e.sequence)
    (compress (traceback query (cleanSequence e.sequence)
      (bestCell query (cleanSequence e.sequence)).1.1
      (bestCell query (cleanSequence e.sequence)).1.2 TbLayer.mh))
  simp only [mkHit]
  refine ⟨(roundTo_bounds (queryCoverage_bounds _ hspan).1
      (queryCoverage_bounds _ hspan).2).1,
    (roundTo_bounds (queryCoverage_bounds _ hspan).1
      (queryCoverage_bounds _ hspan).2).2,
    (roundTo_bounds (percentIdentity_bounds hid).1
      (percentIdentity_bounds hid).2).1,
    (roundTo_bounds (percentIdentity_bounds hid).1
      (percentIdentity_bounds hid).2).2⟩

/-- Every returned hit is the per-entry hit of some corpus entry that passed
the metadata filter, had a nonempty stored sequence, and met the identity
threshold. -/
theorem align_mem (raw : List Char) (db : List EnzymeSequence) (pt : List String)
    (rs : Bool) (mr : ℕ) (thr : ℚ) :
    ∀ x ∈ (align raw db pt rs mr thr).1, ∃ e ∈ loadSequences db pt rs,
      e.sequence ≠ [] ∧ alignHit (cleanSequence raw) thr e = some x ∧
      x = mkHit (cleanSequence raw) e := by
  intro x hx
  by_cases hq : (cleanSequence raw).length = 0
  · simp [align, hq] at hx
  · simp only [align, if_neg hq] at hx
    have hx1 := List.take_subset _ _ hx
    rw [List.mem_mergeSort] at hx1
    simp only [candidateHits] at hx1
    obtain ⟨e, he, hfe⟩ := List.mem_filterMap.mp hx1
    refine ⟨e, he, ?_, hfe, ?_⟩
    · intro hemp
      rw [show alignHit (cleanSequence raw) thr e = none from by
        simp [alignHit, hemp]] at hfe
      simp at hfe
    · simp only [alignHit] at hfe
      split at hfe
      · simp at hfe
      · split at hfe
        · simp at hfe
        · exact (Option.some.inj hfe).symm

/-- C8: every alignment produced during a search has both percentage metrics
in [0, 100]: this holds for the per-entry metric computation on any query and
entry, and for every hit of the returned list of any search. -/
theorem c8_metric_bounds (raw query : List Char) (db : List EnzymeSequence)
    (pt : List String) (rs : Bool) (mr : ℕ) (thr : ℚ) (e : EnzymeSequence) :
    (0 ≤ (mkHit query e).query_cover ∧ (mkHit query e).query_cover ≤ 100 ∧
     0 ≤ (mkHit query e).percent_identity ∧
     (mkHit query e).percent_identity ≤ 100) ∧
    (align raw db pt rs mr thr).1.Forall (fun h =>
      0 ≤ h.query_cover ∧ h.query_cover ≤ 100 ∧
      0 ≤ h.percent_identity ∧ h.percent_identity ≤ 100) := by
  refine ⟨mkHit_bounds query e, ?_⟩
  rw [List.forall_iff_forall_mem]
  intro x hx
  obtain ⟨e', -, -, -, hx2⟩ := align_mem raw db pt rs mr thr x hx
  rw [hx2]
  exact mkHit_bounds _ _

/-- Lowering the identity threshold never turns an accepted entry into a
rejected one. -/
theorem alignHit_isSome_mono {query : List Char} {t1 t2 : ℚ} (h : t1 ≤ t2)
    (e : EnzymeSequence) (hs : (alignHit query t2 e).isSome) :
    (alignHit query t1 e).isSome := by
  simp only [alignHit] at hs ⊢
  by_cases he : e.sequence.isEmpty
  · rw [if_pos he] at hs
    simp at hs
  · rw [if_neg he] at hs ⊢
    by_cases hp2 : (mkHit query e).percent_identity < t2
    · rw [if_pos hp2] at hs
      simp at hs
    · rw [if_neg (by push_neg at hp2 ⊢; linarith :
        ¬(mkHit query e).percent_identity < t1)]
      simp

/-- C6: for a fixed query, corpus, filter and maximum result count, the
number of returned hits is monotonically non-increasing in the identity
threshold. -/
theorem c6_threshold_monotone (raw : List Char) (db : List EnzymeSequence)
    (pt : List String) (rs : Bool) (mr : ℕ) (t1 t2 : ℚ) (h : t1 ≤ t2) :
    ((align raw db pt rs mr t2).1).length ≤ ((align raw db pt rs mr t1).1).length := by
  by_cases hq : (cleanSequence raw).length = 0
  · simp [align, hq]
  · simp only [align, if_neg hq]
    have hlen : (candidateHits (cleanSequence raw) t2 (loadSequences db pt rs)).length ≤
        (candidateHits (cleanSequence raw) t1 (loadSequences db pt rs)).length := by
      simp only [candidateHits]
      rw [List.length_filterMap_eq_countP, List.length_filterMap_eq_countP]
      exact List.countP_mono_left (fun e _ hs => alignHit_isSome_mono h e hs)
    rw [List.length_take, List.length_take, List.length_mergeSort,
      List.length_mergeSort]
    omega

/-- Witness for C6 at thresholds 30 and 50. -/
theorem c6_threshold_monotone_witness :
    ((align ['A'] [enzymeMK] [] false 5 50).1).length ≤
      ((align ['A'] [enzymeMK] [] false 5 30).1).length :=
  c6_threshold_monotone ['A'] [enzymeMK] [] false 5 30 50 (by norm_num)

/-- Dropping entries with an empty stored sequence does not change the
residue total (they contribute zero). -/
theorem residueTotal_filter (l : List EnzymeSequence) :
    residueTotal l = residueTotal (l.filter (fun e => !e.sequence.isEmpty)) := by
  induction l with
  | nil => rfl
  | cons e l ih =>
    simp only [residueTotal, List.filter_cons] at ih ⊢
    by_cases he : e.sequence.isEmpty
    · have hlen : e.sequence.length = 0 := by
        rw [List.isEmpty_iff] at he
        simp [he]
      simp [he, hlen, ih]
    · simp [he, ih]

/-- C10: a corpus entry with an empty stored residue string is skipped by the
aligner and never appears among the returned hits, yet the filtered count is
the number of entries passing the metadata filter (independent of whether
they produce hits), and the residue total feeding the E-value also counts the
zero-length entries. -/
theorem c10_empty_sequence_entries (raw : List Char) (db : List EnzymeSequence)
    (pt : List String) (rs : Bool) (mr : ℕ) (thr : ℚ)
    (hq : cleanSequence raw ≠ []) :
    (∀ e, e.sequence = [] → alignHit (cleanSequence raw) thr e = none) ∧
    (align raw db pt rs mr thr).2.2 = (loadSequences db pt rs).length ∧
    residueTotal (loadSequences db pt rs) =
      residueTotal ((loadSequences db pt rs).filter (fun e => !e.sequence.isEmpty)) ∧
    (align raw db pt rs mr thr).1.Forall (fun h =>
      ∃ e ∈ loadSequences db pt rs, e.sequence ≠ [] ∧
        alignHit (cleanSequence raw) thr e = some h) := by
  have hq' : ¬(cleanSequence raw).length = 0 := by
    intro hh
    exact hq (List.length_eq_zero.mp hh)
  refine ⟨?_, ?_, residueTotal_filter _, ?_⟩
  · intro e he
    simp [alignHit, he]
  · simp only [align, if_neg hq']
  · rw [List.forall_iff_forall_mem]
    intro x hx
    obtain ⟨e, he1, he2, he3, -⟩ := align_mem raw db pt rs mr thr x hx
    exact ⟨e, he1, he2, he3⟩

/-- Witness for C10 with a corpus holding one empty-sequence entry. -/
theorem c10_empty_sequence_entries_witness :
    alignHit (cleanSequence ['A']) 30 enzymeEmpty = none ∧
    (align ['A'] [enzymeEmpty] [] false 5 30).2.2 = 1 := by
  have h := c10_empty_sequence_entries ['A'] [enzymeEmpty] [] false 5 30 (by decide)
  refine ⟨h.1 enzymeEmpty rfl, ?_⟩
  rw [h.2.1]
  decide

/-- Transitivity of the descending-score sort key. -/
theorem scoreLe_trans : ∀ a b c : BlastHit, scoreLe a b → scoreLe b c → scoreLe a c := by
  intro a b c hab hbc
  simp only [scoreLe, decide_eq_true_eq] at hab hbc ⊢
  omega

/-- Totality of the descending-score sort key. -/
theorem scoreLe_total : ∀ a b : BlastHit, scoreLe a b || scoreLe b a := by
  intro a b
  simp only [scoreLe]
  rcases le_total b.max_score a.max_score with h | h
  · simp [h]
  · simp [h]

/-- C3: the returned hit list is sorted by raw score descending, holds at
most max_results hits, and within any tied score level the returned hits
appear in the same relative order as the corpus iteration (they form a
sublist of the candidate stream restricted to that score). -/
theorem c3_ranking (raw : List Char) (db : List EnzymeSequence) (pt : List String)
    (rs : Bool) (mr : ℕ) (thr : ℚ) :
    ((align raw db pt rs mr thr).1).Pairwise (fun a b => b.max_score ≤ a.max_score) ∧
    ((align raw db pt rs mr thr).1).length ≤ mr ∧
    ∀ s : ℤ, List.Sublist
      (((align raw db pt rs mr thr).1).filter (fun h => h.max_score == s))
      ((candidateHits (cleanSequence raw) thr (loadSequences db pt rs)).filter
        (fun h => h.max_score == s)) := by
  by_cases hq : (cleanSequence raw).length = 0
  · refine ⟨?_, ?_, ?_⟩ <;> simp [align, hq]
  · simp only [align, if_neg hq]
    refine ⟨?_, List.length_take_le mr _, ?_⟩
    · have hs := List.sorted_mergeSort scoreLe_trans scoreLe_total
        (candidateHits (cleanSequence raw) thr (loadSequences db pt rs))
      refine (List.Pairwise.sublist (List.take_sublist mr _) hs).imp ?_
      intro a b hab
      simpa [scoreLe] using hab
    · intro s
      set pre := candidateHits (cleanSequence raw) thr (loadSequences db pt rs) with hpre
      set p := fun h : BlastHit => h.max_score == s with hpdef
      have hc : (pre.filter p).Pairwise (fun a b => scoreLe a b) := by
        apply List.pairwise_of_forall_mem_list
        intro a ha b hb
        have ha2 := (List.mem_filter.mp ha).2
        have hb2 := (List.mem_filter.mp hb).2
        simp only [hpdef, beq_iff_eq] at ha2 hb2
        simp [scoreLe, ha2, hb2]
      have hsub : List.Sublist (pre.filter p) pre := List.filter_sublist pre
      have hms : List.Sublist (pre.filter p) (pre.mergeSort scoreLe) :=
        List.sublist_mergeSort scoreLe_trans scoreLe_total hc hsub
      have hfl : (pre.filter p).filter p = pre.filter p :=
        List.filter_eq_self.mpr (fun a ha => (List.mem_filter.mp ha).2)
      have h1 : List.Sublist (pre.filter p) ((pre.mergeSort scoreLe).filter p) := by
        rw [← hfl]
        exact List.Sublist.filter p hms
      have hlen2 : ((pre.mergeSort scoreLe).filter p).length = (pre.filter p).length :=
        ((List.mergeSort_perm pre scoreLe).filter p).length_eq
      have heq : (pre.mergeSort scoreLe).filter p = pre.filter p :=
        (List.Sublist.eq_of_length h1 hlen2.symm).symm
      have h2 : List.Sublist (((pre.mergeSort scoreLe).take mr).filter p)
          ((pre.mergeSort scoreLe).filter p) :=
        List.Sublist.filter p (List.take_sublist mr _)
      rw [heq] at h2
      exact h2
